import Mathlib

/-!
# ctxlog: a logrus entry carried by a context

Shallow embedding of `src/ctxlog.go` (package `ctxlog`): the six exported
functions `With`, `WithField`, `WithFields`, `Fields`, `Clear`, `Set`, over a
model of the two collaborators the package imports (`context` and `logrus`).

Conventions of the embedding:

* a Go map `map[string]interface{}` is a `Finmap`: finite, key-unique,
  unordered;
* a Go pointer `*log.Entry` is an `Option (Entry V)`, `none` being the nil
  pointer;
* a Go expression that can panic returns `Except Panic _`.
-/

/-! ## The logging collaborator (`github.com/sirupsen/logrus`, imported as `log`) -/

namespace Logrus

/-- Go type `logrus.Fields`, that is `map[string]interface{}`; `V` is the type
of the dynamic values held by `interface{}`. -/
abbrev Fields (V : Type) : Type := Finmap (fun _ : String => V)

/-- Identity of a `*logrus.Logger`: the process-wide standard logger, or some
other logger the caller built. -/
inductive Logger where
  | std
  | custom (id : Nat)
deriving DecidableEq, Repr

/-- Go struct `logrus.Entry`, with the logger it writes to and its accumulated
fields (`Data`). -/
structure Entry (V : Type) where
  Logger : Logger
  Data : Fields V

/-- Runtime panics of the Go program. -/
inductive Panic where
  | nilDereference
deriving DecidableEq, Repr

/-- Go function `logrus.StandardLogger()`. -/
def StandardLogger : Logger := Logger.std

/-- Modelled from the spec: `logrus.NewEntry` is the "default/standard
constructor" of the external logging-entry type (spec section 6); the entry it
returns is bound to the given logger and has an empty field mapping. -/
def NewEntry {V : Type} (logger : Logger) : Entry V :=
  { Logger := logger, Data := ∅ }

/-- Modelled from the spec: `(*logrus.Entry).WithFields` is "deriving a new
entry with a batch of additional fields" (spec section 6), with "override
semantics ... applied per key" (spec section 4.1): the new entry keeps the
logger, and its mapping is the old one overwritten by `fields`. The receiver
is not changed. -/
def Entry.WithFields {V : Type} (entry : Entry V) (fields : Fields V) : Entry V :=
  { Logger := entry.Logger, Data := fields ∪ entry.Data }

/-- Modelled from the spec: `(*logrus.Entry).WithField` is "deriving a new
entry with one additional field" (spec section 6), "overwriting any existing
value for that name" (spec section 4.1); in logrus it is `WithFields` of the
one-pair mapping. -/
def Entry.WithField {V : Type} (entry : Entry V) (key : String) (value : V) : Entry V :=
  entry.WithFields (Finmap.singleton key value)

/-- Dereference of a `*log.Entry`: reading a field of the nil pointer, or
calling one of the methods above on it (they read `entry.Data`), panics. -/
def deref {V : Type} (p : Option (Entry V)) : Except Panic (Entry V) :=
  match p with
  | some e => Except.ok e
  | none => Except.error Panic.nilDereference

end Logrus

/-! ## The context collaborator (Go package `context`) -/

namespace Ctxlog

open Logrus (Entry Logger Panic NewEntry StandardLogger deref)

/-- Keys of context values. `ctxkey` is the value `ctxkey{}` of the unexported
type of line 25; `foreign k` is any other (non-nil, comparable) key, which Go
compares unequal to `ctxkey{}` because its dynamic type differs. -/
inductive Key (K : Type) where
  | ctxkey
  | foreign (k : K)
deriving DecidableEq, Repr

/-- Dynamic values of Go type `interface{}` as far as the type assertion of
`With` tells them apart: the untyped nil, a value of dynamic type `*log.Entry`
(the pointer itself possibly nil), or a value of any other type. -/
inductive Any (V : Type) where
  | nil
  | entry (e : Option (Entry V))
  | other (x : V)

/-- Go interface `context.Context`, immutable and chained: the empty root
`context.Background()`, or the node made by `context.WithValue(parent, key, val)`. -/
inductive Context (K V : Type) where
  | background
  | withValue (parent : Context K V) (key : Key K) (val : Any V)

/-- Go method `ctx.Value(key)`: the value of the nearest node of the chain that
carries `key`, and the untyped nil when no node does. -/
def Context.Value {K V : Type} [DecidableEq K] : Context K V → Key K → Any V
  | Context.background, _ => Any.nil
  | Context.withValue parent k val, key => if k = key then val else parent.Value key

/-! ## Package `ctxlog` (`src/ctxlog.go`) -/

variable {K V : Type} [DecidableEq K]

/-- Go function `With`, lines 29-35: the type assertion
`ctx.Value(ctxkey{}).(*log.Entry)` succeeds exactly on a value of dynamic type
`*log.Entry`, a nil pointer of that type included; otherwise a new entry on the
standard logger is returned. -/
def With (ctx : Context K V) : Option (Entry V) :=
  match ctx.Value Key.ctxkey with
  | Any.entry e => e
  | _ => some (NewEntry StandardLogger)

/-- Go function `Set`, lines 69-71. -/
def Set (ctx : Context K V) (entry : Option (Entry V)) : Context K V :=
  Context.withValue ctx Key.ctxkey (Any.entry entry)

/-- Go function `WithField`, lines 38-40. -/
def WithField (ctx : Context K V) (name : String) (value : V) : Except Panic (Context K V) :=
  (deref (With ctx)).map fun e => Set ctx (some (e.WithField name value))

/-- Go function `WithFields`, lines 43-45. -/
def WithFields (ctx : Context K V) (fields : Logrus.Fields V) : Except Panic (Context K V) :=
  (deref (With ctx)).map fun e => Set ctx (some (e.WithFields fields))

/-- Go function `Fields`, lines 48-50: `With(ctx).Data`. -/
def Fields (ctx : Context K V) : Except Panic (Logrus.Fields V) :=
  (deref (With ctx)).map fun e => e.Data

/-- Go function `Clear`, lines 58-61: stores the untyped nil under the reserved
key. -/
def Clear (ctx : Context K V) : Context K V :=
  Context.withValue ctx Key.ctxkey Any.nil

/-! ## Vocabulary of the properties -/

/-- The chain of `ctx` has a node carrying `key` (for `Key.ctxkey`: some `Set`,
`WithField`, `WithFields` or `Clear` was applied in the lineage of `ctx`). -/
def Context.hasKey : Context K V → Key K → Bool
  | Context.background, _ => false
  | Context.withValue parent k _, key => decide (k = key) || parent.hasKey key

/-- The entry `With(ctx)` is not nil and `Fields(ctx)` returns its mapping. -/
def Usable (ctx : Context K V) : Prop :=
  ∃ e : Entry V, With ctx = some e ∧ Fields ctx = Except.ok e.Data

/-- Sequential merge: `WithField` applied once per pair, in the order of the
list, each call on the context returned by the previous one. -/
def seqWithField (ctx : Context K V) : List (Σ _ : String, V) → Except Panic (Context K V)
  | [] => Except.ok ctx
  | p :: ps => WithField ctx p.1 p.2 >>= fun c => seqWithField c ps

/-- Descendant of `ctx` derived by `context.WithValue` with foreign keys only,
one node per pair of the list. -/
def withForeign (ctx : Context K V) : List (K × Any V) → Context K V
  | [] => ctx
  | p :: ps => withForeign (Context.withValue ctx (Key.foreign p.1) p.2) ps

/-- A small universe of dynamic values, for concrete runs. -/
inductive GoValue where
  | int (i : Int)
  | str (s : String)
deriving DecidableEq, Repr

/-- The empty root context of the concrete runs, with string-named foreign keys. -/
def root : Context String GoValue := Context.background

/-- The mapping `{"a": 1, "b": 2}` of the concrete runs. -/
def fieldsAB : Logrus.Fields GoValue :=
  Finmap.insert "a" (GoValue.int 1) (Finmap.singleton "b" (GoValue.int 2))

/-- The pairs of `fieldsAB` enumerated as `a`, `b`. -/
def listAB : AList (fun _ : String => GoValue) :=
  ⟨[⟨"a", GoValue.int 1⟩, ⟨"b", GoValue.int 2⟩], by simp [List.NodupKeys, List.keys]⟩

/-- The pairs of `fieldsAB` enumerated as `b`, `a`. -/
def listBA : AList (fun _ : String => GoValue) :=
  ⟨[⟨"b", GoValue.int 2⟩, ⟨"a", GoValue.int 1⟩], by simp [List.NodupKeys, List.keys]⟩

/-- The context `WithField(Background, "b", 0)` of the concrete runs. -/
def ctxWithB : Context String GoValue :=
  Set root (some ((NewEntry StandardLogger).WithField "b" (GoValue.int 0)))

/-! ## Basic facts about the embedding -/

theorem singleton_union {V : Type} (n : String) (v : V) (m : Logrus.Fields V) :
    Finmap.singleton n v ∪ m = Finmap.insert n v m := by
  apply Finmap.ext_lookup
  intro x
  by_cases hx : x = n
  · subst hx
    rw [Finmap.lookup_insert, Finmap.lookup_union_left]
    · exact Finmap.lookup_singleton_eq
    · exact (Finmap.mem_singleton x x v).2 rfl
  · rw [Finmap.lookup_insert_of_ne _ hx, Finmap.lookup_union_right]
    exact fun h => hx ((Finmap.mem_singleton x n v).1 h)

theorem lookup_singleton_ne {V : Type} (x n : String) (v : V) (h : x ≠ n) :
    (Finmap.singleton n v : Logrus.Fields V).lookup x = none :=
  Finmap.lookup_eq_none.2 fun hm => h ((Finmap.mem_singleton x n v).1 hm)

theorem data_WithField {V : Type} (e : Entry V) (n : String) (v : V) :
    (e.WithField n v).Data = Finmap.insert n v e.Data := by
  simp [Entry.WithField, Entry.WithFields, singleton_union]

theorem value_Set (ctx : Context K V) (e : Option (Entry V)) :
    (Set ctx e).Value Key.ctxkey = Any.entry e := by
  simp [Set, Context.Value]

theorem with_Set (ctx : Context K V) (e : Option (Entry V)) : With (Set ctx e) = e := by
  simp [With, value_Set]

theorem with_Clear (ctx : Context K V) : With (Clear ctx) = some (NewEntry StandardLogger) := by
  simp [With, Clear, Context.Value]

theorem fields_of_with (ctx : Context K V) (e : Entry V) (h : With ctx = some e) :
    Fields ctx = Except.ok e.Data := by
  simp [Fields, h, deref, Except.map]

theorem fields_of_nil (ctx : Context K V) (h : With ctx = none) :
    Fields ctx = Except.error Panic.nilDereference := by
  simp [Fields, h, deref, Except.map]

theorem withField_of_with (ctx : Context K V) (n : String) (v : V) (e : Entry V)
    (h : With ctx = some e) :
    WithField ctx n v = Except.ok (Set ctx (some (e.WithField n v))) := by
  simp [WithField, h, deref, Except.map]

theorem withField_of_nil (ctx : Context K V) (n : String) (v : V) (h : With ctx = none) :
    WithField ctx n v = Except.error Panic.nilDereference := by
  simp [WithField, h, deref, Except.map]

theorem withFields_of_with (ctx : Context K V) (fs : Logrus.Fields V) (e : Entry V)
    (h : With ctx = some e) :
    WithFields ctx fs = Except.ok (Set ctx (some (e.WithFields fs))) := by
  simp [WithFields, h, deref, Except.map]

theorem withFields_of_nil (ctx : Context K V) (fs : Logrus.Fields V) (h : With ctx = none) :
    WithFields ctx fs = Except.error Panic.nilDereference := by
  simp [WithFields, h, deref, Except.map]

theorem value_of_hasKey_false (ctx : Context K V) (key : Key K) (h : ctx.hasKey key = false) :
    ctx.Value key = Any.nil := by
  induction ctx with
  | background => rfl
  | withValue parent k val ih =>
    simp only [Context.hasKey, Bool.or_eq_false_iff, decide_eq_false_iff_not] at h
    simp [Context.Value, h.1, ih h.2]

theorem seq_fields_of_nil (l : List (Σ _ : String, V)) (ctx : Context K V) (h : With ctx = none) :
    (seqWithField ctx l >>= Fields) = Except.error Panic.nilDereference := by
  cases l with
  | nil => exact fields_of_nil ctx h
  | cons p ps => simp [seqWithField, withField_of_nil ctx _ _ h, bind, Except.bind]

theorem seq_fields_of_with (l : List (Σ _ : String, V)) :
    ∀ (ctx : Context K V) (e : Entry V), With ctx = some e →
      (seqWithField ctx l >>= Fields)
        = Except.ok (l.foldl (fun m p => Finmap.insert p.1 p.2 m) e.Data) := by
  induction l with
  | nil => intro ctx e h; exact fields_of_with ctx e h
  | cons p ps ih =>
    intro ctx e h
    have := ih (Set ctx (some (e.WithField p.1 p.2))) _ (with_Set _ _)
    simp only [seqWithField, withField_of_with ctx _ _ e h, List.foldl_cons]
    rw [data_WithField] at this
    exact this

theorem lookup_foldl_insert (x : String) (l : List (Σ _ : String, V)) :
    ∀ m : Logrus.Fields V, l.NodupKeys →
      (l.foldl (fun m p => Finmap.insert p.1 p.2 m) m).lookup x
        = (l.dlookup x).orElse fun _ => m.lookup x := by
  induction l with
  | nil => intro m _; simp
  | cons p ps ih =>
    intro m hl
    obtain ⟨a, b⟩ := p
    rw [List.nodupKeys_cons] at hl
    rw [List.foldl_cons, ih _ hl.2]
    by_cases hx : x = a
    · subst hx
      have : ps.dlookup x = none := List.dlookup_eq_none.2 hl.1
      simp [this, Finmap.lookup_insert]
    · rw [List.dlookup_cons_ne _ _ hx, Finmap.lookup_insert_of_ne _ hx]

theorem lookup_union_orElse (x : String) (fs m : Logrus.Fields V) :
    (fs ∪ m).lookup x = (fs.lookup x).orElse fun _ => m.lookup x := by
  by_cases hx : x ∈ fs
  · obtain ⟨b, hb⟩ := Finmap.mem_iff.1 hx
    rw [Finmap.lookup_union_left hx, hb]; rfl
  · rw [Finmap.lookup_union_right hx, Finmap.lookup_eq_none.2 hx]; rfl

theorem foldl_insert_eq_union (l : AList (fun _ : String => V)) (m : Logrus.Fields V) :
    l.entries.foldl (fun m p => Finmap.insert p.1 p.2 m) m = AList.toFinmap l ∪ m := by
  apply Finmap.ext_lookup
  intro x
  rw [lookup_foldl_insert x l.entries m l.nodupKeys, lookup_union_orElse, Finmap.lookup_toFinmap]
  rfl

theorem value_withValue_foreign (ctx : Context K V) (k : K) (x : Any V) :
    (Context.withValue ctx (Key.foreign k) x).Value Key.ctxkey = ctx.Value Key.ctxkey := by
  simp [Context.Value]

theorem with_withValue_foreign (ctx : Context K V) (k : K) (x : Any V) :
    With (Context.withValue ctx (Key.foreign k) x) = With ctx := by
  simp [With, value_withValue_foreign]

theorem with_withForeign (kvs : List (K × Any V)) :
    ∀ ctx : Context K V, With (withForeign ctx kvs) = With ctx := by
  induction kvs with
  | nil => intro ctx; rfl
  | cons p ps ih =>
    intro ctx
    rw [withForeign, ih, with_withValue_foreign]

theorem fields_congr (c d : Context K V) (h : With c = With d) : Fields c = Fields d := by
  simp [Fields, h]

/-! ## C1: `WithField` sets one field -/

/-- C1, as stated, fails on a context that holds a nil entry: on
`Set(Background, nil)` the call `WithField(ctx, "request_id", "r-1")` panics
(and so does `Fields(ctx)`), so it returns no context in which `request_id`
is mapped to `r-1`. -/
theorem c1_nil_entry_counterexample :
    ¬ ∃ (c : Context String GoValue) (m : Logrus.Fields GoValue),
        WithField (Set root none) "request_id" (GoValue.str "r-1") = Except.ok c ∧
        Fields c = Except.ok m ∧ m.lookup "request_id" = some (GoValue.str "r-1") := by
  rintro ⟨c, m, h, -⟩
  rw [withField_of_nil _ _ _ (with_Set _ _)] at h
  cases h

/-- C1, amended: for every context `ctx` whose current entry `With(ctx)` is not
nil, every name `n` and value `v`, `WithField(ctx, n, v)` returns a context
whose `Fields` is the mapping `Fields(ctx)` with `n` set to `v`: it maps `n` to
`v` and agrees with `Fields(ctx)` on every other name. -/
theorem c1_withField_sets_field (ctx : Context K V) (n : String) (v : V)
    (h : With ctx ≠ none) :
    ∃ (c : Context K V) (m m1 : Logrus.Fields V),
      Fields ctx = Except.ok m ∧ WithField ctx n v = Except.ok c ∧ Fields c = Except.ok m1 ∧
      m1 = Finmap.insert n v m ∧ m1.lookup n = some v ∧
      ∀ k : String, k ≠ n → m1.lookup k = m.lookup k := by
  obtain ⟨e, he⟩ := Option.ne_none_iff_exists'.1 h
  refine ⟨Set ctx (some (e.WithField n v)), e.Data, Finmap.insert n v e.Data,
    fields_of_with ctx e he, withField_of_with ctx n v e he, ?_, rfl,
    Finmap.lookup_insert _, fun k hk => Finmap.lookup_insert_of_ne _ hk⟩
  rw [fields_of_with _ _ (with_Set _ _), data_WithField]

/-- C1 on the run of the claim: from the empty root `C0`,
`C1 = WithField(C0, "request_id", "r-1")` and `C2 = WithField(C1, "user", "alice")`
give `Fields(C0) = {}`, `Fields(C1) = {request_id: r-1}` and
`Fields(C2) = {request_id: r-1, user: alice}`; the amended C1 applied at `C1`. -/
theorem c1_withField_sets_field_witness :
    Fields root = Except.ok ∅ ∧
    (WithField root "request_id" (GoValue.str "r-1") >>= Fields)
      = Except.ok (Finmap.singleton "request_id" (GoValue.str "r-1")) ∧
    ((WithField root "request_id" (GoValue.str "r-1") >>= fun c1 =>
        WithField c1 "user" (GoValue.str "alice")) >>= Fields)
      = Except.ok (Finmap.insert "user" (GoValue.str "alice")
          (Finmap.singleton "request_id" (GoValue.str "r-1"))) ∧
    With (Set root (some ((NewEntry StandardLogger).WithField "request_id" (GoValue.str "r-1"))))
      ≠ none ∧
    ∃ (c : Context String GoValue) (m m1 : Logrus.Fields GoValue),
      Fields (Set root (some ((NewEntry StandardLogger).WithField "request_id"
        (GoValue.str "r-1")))) = Except.ok m ∧
      WithField (Set root (some ((NewEntry StandardLogger).WithField "request_id"
        (GoValue.str "r-1")))) "user" (GoValue.str "alice") = Except.ok c ∧
      Fields c = Except.ok m1 ∧
      m1 = Finmap.insert "user" (GoValue.str "alice") m ∧
      m1.lookup "user" = some (GoValue.str "alice") ∧
      ∀ k : String, k ≠ "user" → m1.lookup k = m.lookup k :=
  ⟨rfl, rfl, rfl, by simp [with_Set],
    c1_withField_sets_field _ "user" (GoValue.str "alice") (by simp [with_Set])⟩

/-! ## C2: a context without an entry reads as the fresh default entry -/

/-- C2: for every context `ctx` whose chain has no node carrying the reserved
key (no prior `Set`, `WithField`, `WithFields` or `Clear` in its lineage),
`With(ctx)` is a new entry on the standard logger with an empty field mapping,
and `Fields(ctx)` returns the empty mapping. -/
theorem c2_with_default_when_unset (ctx : Context K V)
    (h : ctx.hasKey Key.ctxkey = false) :
    With ctx = some (NewEntry StandardLogger) ∧
    (∃ e : Entry V, With ctx = some e ∧ e.Logger = StandardLogger ∧ e.Data = ∅) ∧
    Fields ctx = Except.ok ∅ := by
  have hw : With ctx = some (NewEntry StandardLogger) := by
    simp [With, value_of_hasKey_false ctx Key.ctxkey h]
  exact ⟨hw, ⟨NewEntry StandardLogger, hw, rfl, rfl⟩, fields_of_with ctx _ hw⟩

/-- C2 on a context that carries only a foreign key. -/
theorem c2_with_default_when_unset_witness :
    (Context.withValue root (Key.foreign "trace") (Any.other (GoValue.int 7))).hasKey
      Key.ctxkey = false ∧
    Fields (Context.withValue root (Key.foreign "trace") (Any.other (GoValue.int 7)))
      = Except.ok ∅ :=
  ⟨by decide, (c2_with_default_when_unset _ (by decide)).2.2⟩

/-! ## C3: `Clear` -/

/-- C3, as stated, fails in its "in particular" clause on a context that holds
a nil entry: on `Set(Background, nil)` the inner `WithField(ctx, "a", 1)`
panics, so `Fields(Clear(WithField(ctx, "a", 1)))` is a panic and not the empty
mapping. -/
theorem c3_nil_entry_counterexample :
    (WithField (Set root none) "a" (GoValue.int 1) >>= fun c => Fields (Clear c))
      ≠ Except.ok ∅ := by
  rw [withField_of_nil _ _ _ (with_Set _ _)]
  intro h
  cases h

/-- C3, amended: for every context `ctx`, whatever its lineage holds (a nil
entry included), `With(Clear(ctx))` is the fresh default entry and
`Fields(Clear(ctx))` is empty, so no field of `ctx` is visible after the clear;
in particular, for every `ctx` whose current entry is not nil,
`WithField(ctx, n, v)` returns a context `c` that has the field `n` and
`Fields(Clear(c))` is empty. -/
theorem c3_clear_resets (ctx : Context K V) :
    With (Clear ctx) = some (NewEntry StandardLogger) ∧
    Fields (Clear ctx) = Except.ok ∅ ∧
    (∀ k : String, ∃ m : Logrus.Fields V, Fields (Clear ctx) = Except.ok m ∧ k ∉ m) ∧
    (With ctx ≠ none → ∀ (n : String) (v : V), ∃ (c : Context K V) (m : Logrus.Fields V),
        WithField ctx n v = Except.ok c ∧ Fields c = Except.ok m ∧ n ∈ m ∧
        Fields (Clear c) = Except.ok ∅) := by
  have hf : ∀ c : Context K V, Fields (Clear c) = Except.ok ∅ :=
    fun c => fields_of_with _ _ (with_Clear c)
  refine ⟨with_Clear ctx, hf ctx, fun k => ⟨∅, hf ctx, Finmap.not_mem_empty⟩, ?_⟩
  intro h n v
  obtain ⟨e, he⟩ := Option.ne_none_iff_exists'.1 h
  refine ⟨_, _, withField_of_with ctx n v e he, fields_of_with _ _ (with_Set _ _), ?_, hf _⟩
  rw [data_WithField]
  exact Finmap.mem_insert.2 (Or.inl rfl)

/-- C3 on `Clear(WithField(Background, "a", 1))`. -/
theorem c3_clear_resets_witness :
    With root ≠ none ∧
    ∃ (c : Context String GoValue) (m : Logrus.Fields GoValue),
      WithField root "a" (GoValue.int 1) = Except.ok c ∧ Fields c = Except.ok m ∧ "a" ∈ m ∧
      Fields (Clear c) = Except.ok ∅ :=
  ⟨by simp [With, root, Context.Value],
    (c3_clear_resets root).2.2.2 (by simp [With, root, Context.Value]) "a" (GoValue.int 1)⟩

/-! ## C4: `With` never fails -/

/-- C4, as stated, fails on a context produced by `Set` with a nil entry:
`With(Set(Background, nil))` is the nil pointer (the type assertion succeeds on
a nil `*log.Entry`) and `Fields` panics on it. -/
theorem c4_set_nil_counterexample :
    With (Set root none) = none ∧
    Fields (Set root none) = Except.error Panic.nilDereference ∧
    ¬ Usable (Set root none) := by
  refine ⟨with_Set _ _, fields_of_nil _ (with_Set _ _), ?_⟩
  rintro ⟨e, he, -⟩
  rw [with_Set] at he
  cases he

/-- C4, amended: `With(ctx)` is a non-nil entry and `Fields(ctx)` is defined
for every context `ctx` whose value under the reserved key is not a nil
`*log.Entry`, and only for those; this covers every context produced by
`Clear`, by `Set` with a non-nil entry, and every context returned by
`WithField` or `WithFields`. -/
theorem c4_with_usable (ctx : Context K V) :
    (ctx.Value Key.ctxkey ≠ Any.entry none → Usable ctx) ∧
    (Usable ctx → ctx.Value Key.ctxkey ≠ Any.entry none) ∧
    Usable (Clear ctx) ∧
    (∀ e : Entry V, Usable (Set ctx (some e))) ∧
    (∀ (n : String) (v : V) (c : Context K V), WithField ctx n v = Except.ok c → Usable c) ∧
    (∀ (fs : Logrus.Fields V) (c : Context K V), WithFields ctx fs = Except.ok c → Usable c) := by
  have hu : ∀ (c : Context K V) (e : Entry V), With c = some e → Usable c :=
    fun c e he => ⟨e, he, fields_of_with c e he⟩
  refine ⟨?_, ?_, hu _ _ (with_Clear ctx), fun e => hu _ e (with_Set _ _), ?_, ?_⟩
  · intro h
    cases hv : ctx.Value Key.ctxkey with
    | nil => exact hu ctx (NewEntry StandardLogger) (by simp [With, hv])
    | other x => exact hu ctx (NewEntry StandardLogger) (by simp [With, hv])
    | entry p =>
      cases p with
      | none => exact absurd hv h
      | some e => exact hu ctx e (by simp [With, hv])
  · rintro ⟨e, he, -⟩ hv
    simp [With, hv] at he
  · intro n v c hc
    cases hw : With ctx with
    | none => rw [withField_of_nil ctx n v hw] at hc; cases hc
    | some e =>
      rw [withField_of_with ctx n v e hw] at hc
      cases hc
      exact hu _ _ (with_Set _ _)
  · intro fs c hc
    cases hw : With ctx with
    | none => rw [withFields_of_nil ctx fs hw] at hc; cases hc
    | some e =>
      rw [withFields_of_with ctx fs e hw] at hc
      cases hc
      exact hu _ _ (with_Set _ _)

/-- C4 on the empty root and on a cleared context that held a nil entry. -/
theorem c4_with_usable_witness :
    root.Value Key.ctxkey ≠ Any.entry none ∧ Usable root ∧ Usable (Clear (Set root none)) :=
  ⟨by simp [root, Context.Value],
    (c4_with_usable root).1 (by simp [root, Context.Value]),
    (c4_with_usable (Set root none)).2.2.1⟩

/-! ## C5: `Set` replaces -/

/-- C5: for every context `ctx` and every entry pointer `e` (nil included),
`With(Set(ctx, e))` is exactly `e`, whatever `ctx` held before, and
`Fields(Set(ctx, e))` is the field mapping `e.Data` of `e` (a panic when `e`
is nil, as `e.Data` itself). -/
theorem c5_with_set_returns_entry (ctx : Context K V) (e : Option (Entry V)) :
    With (Set ctx e) = e ∧
    Fields (Set ctx e) = (deref e).map (fun x => x.Data) ∧
    (∀ x : Entry V, e = some x → Fields (Set ctx e) = Except.ok x.Data) := by
  refine ⟨with_Set ctx e, ?_, ?_⟩
  · simp [Fields, with_Set]
  · rintro x rfl
    exact fields_of_with _ _ (with_Set _ _)

/-- C5 on a context that already holds fields: the entry given to `Set` is the
one read back, with none of the earlier fields. -/
theorem c5_with_set_returns_entry_witness :
    Fields (Set (Set root (some ((NewEntry StandardLogger).WithField "a" (GoValue.int 1))))
      (some ⟨Logger.custom 3, Finmap.singleton "b" (GoValue.int 2)⟩))
      = Except.ok (Finmap.singleton "b" (GoValue.int 2)) :=
  (c5_with_set_returns_entry _ (some ⟨Logger.custom 3, Finmap.singleton "b" (GoValue.int 2)⟩)).2.2
    _ rfl

/-! ## C6: batch merge and sequential merge -/

/-- C6: for every context `ctx` and every field mapping `fs`, `WithFields(ctx, fs)`
followed by `Fields` has the same outcome as `WithField` applied once per pair
of `fs`, in the order of any enumeration `l` of `fs`, followed by `Fields`
(the same mapping, or a panic on both sides when `ctx` holds a nil entry); when
the current entry `e` of `ctx` is not nil that outcome is the mapping `e.Data`
overwritten by `fs`. In particular `Fields(WithFields(ctx, {"a": 1, "b": 2}))`
and `Fields(WithField(WithField(ctx, "a", 1), "b", 2))` have the same outcome. -/
theorem c6_withFields_eq_sequential (ctx : Context K V) :
    (∀ (fs : Logrus.Fields V) (l : AList (fun _ : String => V)), AList.toFinmap l = fs →
      (seqWithField ctx l.entries >>= Fields) = (WithFields ctx fs >>= Fields)) ∧
    (∀ (fs : Logrus.Fields V) (e : Entry V), With ctx = some e →
      (WithFields ctx fs >>= Fields) = Except.ok (fs ∪ e.Data)) ∧
    (∀ v1 v2 : V,
      (WithFields ctx (Finmap.insert "a" v1 (Finmap.singleton "b" v2)) >>= Fields)
        = ((WithField ctx "a" v1 >>= fun c => WithField c "b" v2) >>= Fields)) := by
  have hbatch : ∀ (fs : Logrus.Fields V) (e : Entry V), With ctx = some e →
      (WithFields ctx fs >>= Fields) = Except.ok (fs ∪ e.Data) := by
    intro fs e he
    rw [withFields_of_with ctx fs e he]
    exact fields_of_with (Set ctx (some (e.WithFields fs))) _ (with_Set _ _)
  have hseq : ∀ (fs : Logrus.Fields V) (l : AList (fun _ : String => V)),
      AList.toFinmap l = fs →
      (seqWithField ctx l.entries >>= Fields) = (WithFields ctx fs >>= Fields) := by
    intro fs l hl
    cases hw : With ctx with
    | none =>
      rw [seq_fields_of_nil _ ctx hw, withFields_of_nil ctx fs hw]
      exact rfl
    | some e =>
      rw [seq_fields_of_with _ ctx e hw, hbatch fs e hw, foldl_insert_eq_union, hl]
  refine ⟨hseq, hbatch, ?_⟩
  intro v1 v2
  have hnd : ([⟨"a", v1⟩, ⟨"b", v2⟩] : List (Σ _ : String, V)).NodupKeys := by
    simp [List.NodupKeys, List.keys]
  have hl : AList.toFinmap (⟨[⟨"a", v1⟩, ⟨"b", v2⟩], hnd⟩ : AList (fun _ : String => V))
      = Finmap.insert "a" v1 (Finmap.singleton "b" v2) := by
    rw [Finmap.singleton, Finmap.insert_toFinmap]
    congr 1
  rw [← hseq _ _ hl]
  cases h1 : WithField ctx "a" v1 with
  | error err => simp [seqWithField, h1, bind, Except.bind]
  | ok c =>
    cases h2 : WithField c "b" v2 with
    | error err => simp [seqWithField, h1, h2, bind, Except.bind]
    | ok d => simp [seqWithField, h1, h2, bind, Except.bind]

/-- C6 on `{"a": 1, "b": 2}` from the empty root, in both orders of its pairs. -/
theorem c6_withFields_eq_sequential_witness :
    AList.toFinmap listAB = fieldsAB ∧
    (seqWithField root listAB.entries >>= Fields) = (WithFields root fieldsAB >>= Fields) ∧
    AList.toFinmap listBA = fieldsAB ∧
    (seqWithField root listBA.entries >>= Fields) = (WithFields root fieldsAB >>= Fields) ∧
    (WithFields root fieldsAB >>= Fields) = Except.ok (fieldsAB ∪ ∅) :=
  have hab : AList.toFinmap listAB = fieldsAB := rfl
  have hba : AList.toFinmap listBA = fieldsAB :=
    (AList.toFinmap_eq.2 (List.Perm.swap _ _ _)).trans hab
  ⟨hab, (c6_withFields_eq_sequential root).1 fieldsAB listAB hab,
    hba, (c6_withFields_eq_sequential root).1 fieldsAB listBA hba,
    (c6_withFields_eq_sequential root).2.1 fieldsAB (NewEntry StandardLogger) rfl⟩

/-! ## C7: sibling branches -/

/-- C7, as stated, fails on a context that already has the field `b`: from
`ctx = WithField(Background, "b", 0)`, the branch `ctxA = WithField(ctx, "a", 1)`
has `Fields(ctxA) = {a: 1, b: 0}`, which contains `b`. It fails as well on a
context that holds a nil entry, where `WithField` panics. -/
theorem c7_inherited_field_counterexample :
    WithField root "b" (GoValue.int 0) = Except.ok ctxWithB ∧
    (¬ ∃ (cA : Context String GoValue) (mA : Logrus.Fields GoValue),
        WithField ctxWithB "a" (GoValue.int 1) = Except.ok cA ∧ Fields cA = Except.ok mA ∧
        "a" ∈ mA ∧ "b" ∉ mA) ∧
    (¬ ∃ cA : Context String GoValue,
        WithField (Set root none) "a" (GoValue.int 1) = Except.ok cA) := by
  refine ⟨rfl, ?_, ?_⟩
  · rintro ⟨cA, mA, hA, hm, -, hb⟩
    have hw : With ctxWithB
        = some ((NewEntry StandardLogger).WithField "b" (GoValue.int 0)) := with_Set _ _
    rw [withField_of_with _ _ _ _ hw] at hA
    cases hA
    rw [fields_of_with _ _ (with_Set _ _), data_WithField, data_WithField] at hm
    cases hm
    exact hb (Finmap.mem_insert.2 (Or.inr (Finmap.mem_insert.2 (Or.inl rfl))))
  · rintro ⟨cA, hA⟩
    rw [withField_of_nil _ _ _ (with_Set _ _)] at hA
    cases hA

/-- C7, amended: for every context `ctx` whose current entry is not nil and
distinct names `a`, `b`, with `ctxA = WithField(ctx, a, va)` and
`ctxB = WithField(ctx, b, vb)` both derived from `ctx`: `Fields(ctxA)` maps `a`
to `va` and has `b` exactly as `Fields(ctx)` has it, `Fields(ctxB)` maps `b` to
`vb` and has `a` exactly as `Fields(ctx)` has it; so when `Fields(ctx)` has
neither name, `Fields(ctxA)` contains `a` but not `b` and `Fields(ctxB)`
contains `b` but not `a`. -/
theorem c7_siblings_independent (ctx : Context K V) (a b : String) (va vb : V)
    (hab : a ≠ b) (h : With ctx ≠ none) :
    ∃ (cA cB : Context K V) (m mA mB : Logrus.Fields V),
      Fields ctx = Except.ok m ∧
      WithField ctx a va = Except.ok cA ∧ WithField ctx b vb = Except.ok cB ∧
      Fields cA = Except.ok mA ∧ Fields cB = Except.ok mB ∧
      mA.lookup a = some va ∧ mA.lookup b = m.lookup b ∧
      mB.lookup b = some vb ∧ mB.lookup a = m.lookup a ∧
      (b ∉ m → a ∈ mA ∧ b ∉ mA) ∧ (a ∉ m → b ∈ mB ∧ a ∉ mB) := by
  obtain ⟨e, he⟩ := Option.ne_none_iff_exists'.1 h
  refine ⟨_, _, e.Data, Finmap.insert a va e.Data, Finmap.insert b vb e.Data,
    fields_of_with ctx e he, withField_of_with ctx a va e he, withField_of_with ctx b vb e he,
    ?_, ?_, Finmap.lookup_insert _, Finmap.lookup_insert_of_ne _ hab.symm,
    Finmap.lookup_insert _, Finmap.lookup_insert_of_ne _ hab, ?_, ?_⟩
  · rw [fields_of_with _ _ (with_Set _ _), data_WithField]
  · rw [fields_of_with _ _ (with_Set _ _), data_WithField]
  · intro hb
    refine ⟨Finmap.mem_insert.2 (Or.inl rfl), fun hm => ?_⟩
    rcases Finmap.mem_insert.1 hm with h1 | h1
    · exact hab h1.symm
    · exact hb h1
  · intro ha
    refine ⟨Finmap.mem_insert.2 (Or.inl rfl), fun hm => ?_⟩
    rcases Finmap.mem_insert.1 hm with h1 | h1
    · exact hab h1
    · exact ha h1

/-- C7 on the empty root with the names `a` and `b` of the claim. -/
theorem c7_siblings_independent_witness :
    "a" ≠ "b" ∧ With root ≠ none ∧
    ∃ (cA cB : Context String GoValue) (m mA mB : Logrus.Fields GoValue),
      Fields root = Except.ok m ∧
      WithField root "a" (GoValue.int 1) = Except.ok cA ∧
      WithField root "b" (GoValue.int 2) = Except.ok cB ∧
      Fields cA = Except.ok mA ∧ Fields cB = Except.ok mB ∧
      mA.lookup "a" = some (GoValue.int 1) ∧ mA.lookup "b" = m.lookup "b" ∧
      mB.lookup "b" = some (GoValue.int 2) ∧ mB.lookup "a" = m.lookup "a" ∧
      ("b" ∉ m → "a" ∈ mA ∧ "b" ∉ mA) ∧ ("a" ∉ m → "b" ∈ mB ∧ "a" ∉ mB) :=
  ⟨by decide, by simp [With, root, Context.Value],
    c7_siblings_independent root "a" "b" (GoValue.int 1) (GoValue.int 2) (by decide)
      (by simp [With, root, Context.Value])⟩

/-! ## C8: last write wins -/

/-- C8, as stated, fails on a context that holds a nil entry: on
`Set(Background, nil)` the first `WithField(ctx, n, v1)` panics, so there is no
intermediate context whose field `n` is `v1`, and no final one. -/
theorem c8_nil_entry_counterexample :
    ¬ ∃ (c1 : Context String GoValue) (m1 : Logrus.Fields GoValue),
        WithField (Set root none) "n" (GoValue.int 1) = Except.ok c1 ∧
        Fields c1 = Except.ok m1 ∧ m1.lookup "n" = some (GoValue.int 1) := by
  rintro ⟨c1, m1, h, -⟩
  rw [withField_of_nil _ _ _ (with_Set _ _)] at h
  cases h

/-- C8, amended: for every context `ctx` whose current entry is not nil, every
name `n` and values `v1`, `v2`: `c1 = WithField(ctx, n, v1)` and
`c2 = WithField(c1, n, v2)` are returned, `Fields(c2)[n]` is `v2`, and
`Fields(c1)[n]` is still `v1`. -/
theorem c8_last_write_wins (ctx : Context K V) (n : String) (v1 v2 : V)
    (h : With ctx ≠ none) :
    ∃ (c1 c2 : Context K V) (m1 m2 : Logrus.Fields V),
      WithField ctx n v1 = Except.ok c1 ∧ WithField c1 n v2 = Except.ok c2 ∧
      Fields c2 = Except.ok m2 ∧ m2.lookup n = some v2 ∧
      Fields c1 = Except.ok m1 ∧ m1.lookup n = some v1 := by
  obtain ⟨e, he⟩ := Option.ne_none_iff_exists'.1 h
  refine ⟨_, _, Finmap.insert n v1 e.Data, Finmap.insert n v2 (Finmap.insert n v1 e.Data),
    withField_of_with ctx n v1 e he, withField_of_with _ n v2 _ (with_Set _ _), ?_,
    Finmap.lookup_insert _, ?_, Finmap.lookup_insert _⟩
  · rw [fields_of_with _ _ (with_Set _ _), data_WithField, data_WithField]
  · rw [fields_of_with _ _ (with_Set _ _), data_WithField]

/-- C8 on the empty root, writing `user` twice. -/
theorem c8_last_write_wins_witness :
    With root ≠ none ∧
    ∃ (c1 c2 : Context String GoValue) (m1 m2 : Logrus.Fields GoValue),
      WithField root "user" (GoValue.str "alice") = Except.ok c1 ∧
      WithField c1 "user" (GoValue.str "bob") = Except.ok c2 ∧
      Fields c2 = Except.ok m2 ∧ m2.lookup "user" = some (GoValue.str "bob") ∧
      Fields c1 = Except.ok m1 ∧ m1.lookup "user" = some (GoValue.str "alice") :=
  ⟨by simp [With, root, Context.Value],
    c8_last_write_wins root "user" (GoValue.str "alice") (GoValue.str "bob")
      (by simp [With, root, Context.Value])⟩

/-! ## C9: writing the same pair twice -/

/-- C9: for every context `ctx`, name `n` and value `v`,
`Fields(WithField(WithField(ctx, n, v), n, v))` and `Fields(WithField(ctx, n, v))`
have the same outcome (the same mapping, or a panic on both sides when `ctx`
holds a nil entry); when the current entry of `ctx` is not nil both are the same
mapping, which maps `n` to `v`. -/
theorem c9_withField_idempotent (ctx : Context K V) (n : String) (v : V) :
    ((WithField ctx n v >>= fun c => WithField c n v) >>= Fields)
      = (WithField ctx n v >>= Fields) ∧
    (With ctx ≠ none → ∃ m : Logrus.Fields V,
      ((WithField ctx n v >>= fun c => WithField c n v) >>= Fields) = Except.ok m ∧
      (WithField ctx n v >>= Fields) = Except.ok m ∧ m.lookup n = some v) := by
  cases hw : With ctx with
  | none =>
    rw [withField_of_nil ctx n v hw]
    exact ⟨rfl, fun hne => absurd rfl hne⟩
  | some e =>
    have h1 : (WithField ctx n v >>= Fields) = Except.ok (Finmap.insert n v e.Data) := by
      rw [withField_of_with ctx n v e hw]
      exact (fields_of_with (Set ctx (some (e.WithField n v))) _ (with_Set _ _)).trans
        (by rw [data_WithField])
    have h2 : ((WithField ctx n v >>= fun c => WithField c n v) >>= Fields)
        = Except.ok (Finmap.insert n v e.Data) := by
      rw [withField_of_with ctx n v e hw]
      show (WithField (Set ctx (some (e.WithField n v))) n v >>= Fields) = _
      rw [withField_of_with _ n v _ (with_Set _ _)]
      exact (fields_of_with (Set (Set ctx (some (e.WithField n v)))
        (some ((e.WithField n v).WithField n v))) _ (with_Set _ _)).trans
        (by rw [data_WithField, data_WithField, Finmap.insert_insert])
    exact ⟨h2.trans h1.symm, fun _ => ⟨_, h2, h1, Finmap.lookup_insert _⟩⟩

/-- C9 on the empty root. -/
theorem c9_withField_idempotent_witness :
    With root ≠ none ∧
    ∃ m : Logrus.Fields GoValue,
      ((WithField root "a" (GoValue.int 1) >>= fun c => WithField c "a" (GoValue.int 1))
        >>= Fields) = Except.ok m ∧
      (WithField root "a" (GoValue.int 1) >>= Fields) = Except.ok m ∧
      m.lookup "a" = some (GoValue.int 1) :=
  ⟨by simp [With, root, Context.Value],
    (c9_withField_idempotent root "a" (GoValue.int 1)).2 (by simp [With, root, Context.Value])⟩

/-! ## C10: foreign keys -/

/-- C10: for every context `ctx`, every key `k` other than `ctxkey{}` and every
value `x`, `With(context.WithValue(ctx, k, x))` equals `With(ctx)` and
`Fields(context.WithValue(ctx, k, x))` equals `Fields(ctx)`, whether `ctx` holds
an entry, was cleared or was never written; the same holds for a descendant
derived through any number of foreign keys. -/
theorem c10_foreign_keys_do_not_interfere (ctx : Context K V) (k : K) (x : Any V) :
    (Context.withValue ctx (Key.foreign k) x).Value Key.ctxkey = ctx.Value Key.ctxkey ∧
    With (Context.withValue ctx (Key.foreign k) x) = With ctx ∧
    Fields (Context.withValue ctx (Key.foreign k) x) = Fields ctx ∧
    (∀ kvs : List (K × Any V),
      With (withForeign ctx kvs) = With ctx ∧ Fields (withForeign ctx kvs) = Fields ctx) :=
  ⟨value_withValue_foreign ctx k x, with_withValue_foreign ctx k x,
    fields_congr _ _ (with_withValue_foreign ctx k x),
    fun kvs => ⟨with_withForeign kvs ctx, fields_congr _ _ (with_withForeign kvs ctx)⟩⟩

end Ctxlog
